import Mathlib

/-!
Verification development for the rllm numerical `LinearEncoder`
(`rllm/nn/pre_encoder/linear_encoder.py`) and the TabTransformer example
driver (`examples/tab_transformer.py`).

Real numbers computed by the Python code with floating point are modelled
exactly over `ℚ`.  Two embeddings of `LinearEncoder.encode_forward` are
given:

* a `Fin`-indexed model (`Rllm.LinearEncoder`, `Rllm.encodeForward2D`,
  `Rllm.encodeForward3D`), where tensor shapes are types, used for the
  entry-wise value claims; and
* a `List`-based model (`Rllm.LinearEncoderL`, `Rllm.encodeForwardL`),
  where shapes are measurable properties of the data, used for the
  output-shape and `ndim`-dispatch claims.

The batched `torch.einsum("ijk,jkl->ijl", feat, weight)` contraction is
a sum over the `k` (input-width) axis for every batch/column/output-dim
triple; `torch.nn.init.normal_` draws are modelled by an arbitrary
value oracle passed as a parameter, and `torch.empty` by an arbitrary
initial-content parameter.  An optional activation module is modelled as
an elementwise map `ℚ → ℚ` (the spec's "activation function").
-/

namespace Rllm

/-- The statistic keys used by the numerical encoder
(`rllm.types.StatType`): `post_init` reads `StatType.MEAN` and
`StatType.STD` from each per-column statistics dict. -/
inductive StatType where
  | MEAN
  | STD
deriving DecidableEq, Repr

/-- A per-column statistics record: the Python `Dict[StatType, Any]`,
modelled as an association list with rational values. -/
def StatsRecord : Type := List (StatType × ℚ)

/-- Dictionary lookup `stats[k]`: `some v` when the key is present,
`none` when the lookup would raise `KeyError`. -/
def lookupStat (r : StatsRecord) (k : StatType) : Option ℚ :=
  (List.find? (fun p => decide (p.1 = k)) r).map Prod.snd

/-- The additive epsilon `1e-6` added to every per-column standard
deviation in `post_init`. -/
def eps : ℚ := 1 / 1000000

/-- State of an initialized `LinearEncoder` for `C` numerical columns,
input width `K` (= `self.in_dim`) and output width `D` (= `self.out_dim`):
the `mean` and `std` buffers registered by `post_init`, the
`[num_cols, in_dim, out_dim]` weight parameter, the `[num_cols, out_dim]`
bias parameter, and the optional activation module. -/
structure LinearEncoder (C K D : ℕ) where
  mean : Fin C → ℚ
  std : Fin C → ℚ
  weight : Fin C → Fin K → Fin D → ℚ
  bias : Fin C → Fin D → ℚ
  activate : Option (ℚ → ℚ)

/-- The 2-D branch of `encode_forward`'s standardization:
`((feat - self.mean) / self.std).unsqueeze(-1)` for a
`[batch_size, num_cols]` input, yielding a `[batch_size, num_cols, 1]`
tensor. -/
def standardize2 {B C K D : ℕ} (e : LinearEncoder C K D)
    (feat : Fin B → Fin C → ℚ) : Fin B → Fin C → Fin 1 → ℚ :=
  fun b c _ => (feat b c - e.mean c) / e.std c

/-- The 3-D branch of `encode_forward`'s standardization:
`(feat - self.mean.unsqueeze(-1)) / self.std.unsqueeze(-1)` for a
`[batch_size, num_cols, in_dim]` input (the buffers broadcast over the
last axis). -/
def standardize3 {B C K D : ℕ} (e : LinearEncoder C K D)
    (feat : Fin B → Fin C → Fin K → ℚ) : Fin B → Fin C → Fin K → ℚ :=
  fun b c k => (feat b c k - e.mean c) / e.std c

/-- The shared tail of `encode_forward` after standardization:
`x_lin = torch.einsum("ijk,jkl->ijl", feat, self.weight) / self.in_dim`,
then `x = x_lin + self.bias`, then the optional activation. -/
def encodeTail {B C K D : ℕ} (e : LinearEncoder C K D)
    (feat : Fin B → Fin C → Fin K → ℚ) : Fin B → Fin C → Fin D → ℚ :=
  fun b c d =>
    let xLin : ℚ := (∑ k : Fin K, feat b c k * e.weight c k d) / (K : ℚ)
    let x : ℚ := xLin + e.bias c d
    match e.activate with
    | none => x
    | some act => act x

/-- `encode_forward` on a 2-D `[batch_size, num_cols]` input (the
`feat.ndim == 2` branch; the einsum contraction requires `in_dim = 1`
for this shape). -/
def encodeForward2D {B C D : ℕ} (e : LinearEncoder C 1 D)
    (feat : Fin B → Fin C → ℚ) : Fin B → Fin C → Fin D → ℚ :=
  encodeTail e (standardize2 e feat)

/-- `encode_forward` on a 3-D `[batch_size, num_cols, in_dim]` input
(the `feat.ndim == 3` branch). -/
def encodeForward3D {B C K D : ℕ} (e : LinearEncoder C K D)
    (feat : Fin B → Fin C → Fin K → ℚ) : Fin B → Fin C → Fin D → ℚ :=
  encodeTail e (standardize3 e feat)

/-- `reset_parameters`: redraws `self.weight` in place from
`torch.nn.init.normal_(std=0.01)` (the drawn values are the oracle
`wDraw`) and zeroes `self.bias`; no other field of the encoder is
assigned.  (The `super().reset_parameters()` call resets only the
optional post-module; per the spec the normalization buffers are never
updated after construction.) -/
def reset_parameters {C K D : ℕ} (e : LinearEncoder C K D)
    (wDraw : Fin C → Fin K → Fin D → ℚ) : LinearEncoder C K D :=
  { e with weight := wDraw, bias := fun _ _ => 0 }

/-- Turn a per-column family of optional values into an optional family:
`some` exactly when every column's value is present.  This models the
Python list comprehension `[stats[key] for stats in self.stats_list]`,
which raises `KeyError` as soon as one record lacks the key. -/
def seqFin {C : ℕ} (f : Fin C → Option ℚ) : Option (Fin C → ℚ) :=
  if h : ∀ c, (f c).isSome then some (fun c => (f c).get (h c)) else none

/-- `post_init`: builds the `mean` buffer from the per-column `MEAN`
statistics, the `std` buffer from the per-column `STD` statistics plus
`1e-6`, allocates uninitialized `weight`/`bias` tensors (contents
`wEmpty`/`bEmpty`), and calls `reset_parameters` (normal draw `wDraw`).
`none` models the `KeyError` raised when a statistics record lacks
`MEAN` or `STD`. -/
def post_init {C K D : ℕ} (stats_list : Fin C → StatsRecord)
    (wEmpty : Fin C → Fin K → Fin D → ℚ) (bEmpty : Fin C → Fin D → ℚ)
    (wDraw : Fin C → Fin K → Fin D → ℚ) (act : Option (ℚ → ℚ)) :
    Option (LinearEncoder C K D) :=
  match seqFin (fun c => lookupStat (stats_list c) StatType.MEAN),
        seqFin (fun c => lookupStat (stats_list c) StatType.STD) with
  | some m, some s =>
      some (reset_parameters
        { mean := m, std := fun c => s c + eps,
          weight := wEmpty, bias := bEmpty, activate := act } wDraw)
  | _, _ => none

/-! ### List-based model of `encode_forward`

Dynamic-shape model: tensors are nested lists, so the `[batch, num_cols,
out_dim]` output shape and the `feat.ndim` dispatch are provable
properties rather than types. -/

/-- State of an initialized `LinearEncoder` in the list model; `inDim`
and `outDim` are the stored `self.in_dim` / `self.out_dim`, `weight` is
the `[num_cols][in_dim][out_dim]` parameter and `bias` the
`[num_cols][out_dim]` parameter. -/
structure LinearEncoderL where
  inDim : ℕ
  outDim : ℕ
  mean : List ℚ
  std : List ℚ
  weight : List (List (List ℚ))
  bias : List (List ℚ)
  activate : Option (ℚ → ℚ)

/-- A raw input tensor for `encode_forward`, tagged by `ndim` as in the
`if feat.ndim == 2 ... elif feat.ndim == 3` dispatch. -/
inductive RawFeat where
  | d2 (feat : List (List ℚ))
  | d3 (feat : List (List (List ℚ)))

/-- Elementwise sum of two vectors (the last-axis addition of two
`[out_dim]` rows). -/
def vadd (a b : List ℚ) : List ℚ := List.zipWith (fun x y => x + y) a b

/-- Scalar multiple of a row. -/
def smulRow (a : ℚ) (r : List ℚ) : List ℚ := r.map (fun x => a * x)

/-- One output row of `torch.einsum("ijk,jkl->ijl", feat, weight)` at a
fixed batch index `i` and column `j`: contract the column's `[in_dim]`
vector `v` against its `[in_dim][out_dim]` weight slice `W`, summing
`v[k] * W[k]` over `k` into a `[out_dim]` row (`D` zeros when
`in_dim = 0`). -/
def einsumRow (D : ℕ) (v : List ℚ) (W : List (List ℚ)) : List ℚ :=
  (List.zipWith smulRow v W).foldl vadd (List.replicate D 0)

/-- The full `torch.einsum("ijk,jkl->ijl", feat3, w)` contraction for a
`[batch][num_cols][in_dim]` input against the `[num_cols][in_dim][out_dim]`
weight. -/
def einsumL (D : ℕ) (feat3 : List (List (List ℚ)))
    (w : List (List (List ℚ))) : List (List (List ℚ)) :=
  feat3.map (fun row => List.zipWith (fun v Wc => einsumRow D v Wc) row w)

/-- The `ndim`-dispatched standardization of `encode_forward` in the
list model: the `ndim == 2` branch computes
`((feat - mean) / std).unsqueeze(-1)`, the `ndim == 3` branch
`(feat - mean.unsqueeze(-1)) / std.unsqueeze(-1)` (buffers broadcast
over the last axis). -/
def standardizeL (e : LinearEncoderL) : RawFeat → List (List (List ℚ))
  | RawFeat.d2 f =>
      f.map (fun row =>
        List.zipWith (fun v p => [(v - p.1) / p.2]) row (e.mean.zip e.std))
  | RawFeat.d3 f =>
      f.map (fun row =>
        List.zipWith (fun v p => v.map (fun x => (x - p.1) / p.2)) row
          (e.mean.zip e.std))

/-- The shared tail of `encode_forward` in the list model: einsum
contraction with the weight, division by `self.in_dim`, per-column bias
addition (broadcast over the batch axis), optional activation. -/
def encodeTailL (e : LinearEncoderL) (feat3 : List (List (List ℚ))) :
    List (List (List ℚ)) :=
  let xLin := (einsumL e.outDim feat3 e.weight).map
    (fun row => row.map (fun v => v.map (fun x => x / (e.inDim : ℚ))))
  let x := xLin.map (fun row => List.zipWith vadd row e.bias)
  match e.activate with
  | none => x
  | some act => x.map (fun row => row.map (fun v => v.map act))

/-- `encode_forward` in the list model. -/
def encodeForwardL (e : LinearEncoderL) (feat : RawFeat) :
    List (List (List ℚ)) :=
  encodeTailL e (standardizeL e feat)

/-- A `[B][C][D]` shape statement about a nested-list tensor. -/
abbrev shape3 (t : List (List (List ℚ))) (B C D : ℕ) : Prop :=
  t.length = B ∧ ∀ r ∈ t, r.length = C ∧ ∀ v ∈ r, v.length = D

/-- Well-formedness of an initialized encoder state for `C` columns,
input width `K` and output width `D`: exactly the shapes `post_init`
produces (`mean`/`std` of length `num_cols`, weight
`[num_cols, in_dim, out_dim]`, bias `[num_cols, out_dim]`). -/
abbrev wfL (e : LinearEncoderL) (C K D : ℕ) : Prop :=
  e.inDim = K ∧ e.outDim = D ∧ e.mean.length = C ∧ e.std.length = C ∧
  e.weight.length = C ∧ (∀ W ∈ e.weight, W.length = K ∧ ∀ r ∈ W, r.length = D) ∧
  e.bias.length = C ∧ ∀ r ∈ e.bias, r.length = D

/-! ### Model Head of the TabTransformer example -/

/-- `x.mean(dim=1)`: mean-pool a `[batch, C, hidden]` tensor over the
column axis. -/
def meanPool {B C H : ℕ} (x : Fin B → Fin C → Fin H → ℚ) :
    Fin B → Fin H → ℚ :=
  fun b h => (∑ c : Fin C, x b c h) / (C : ℚ)

/-- `torch.nn.Linear(hidden_dim, out_dim)` applied to one pooled vector:
`W v + bias`. -/
def linearFc {H O : ℕ} (W : Fin O → Fin H → ℚ) (bv : Fin O → ℚ)
    (v : Fin H → ℚ) : Fin O → ℚ :=
  fun o => (∑ h : Fin H, W o h * v h) + bv o

/-- The Model Head `self.fc(x.mean(dim=1))` of `TabTransformer.forward`,
mapping the contextualized `[batch, C, hidden]` tensor to
`[batch, num_classes]` logits. -/
def headForward {B C H O : ℕ} (W : Fin O → Fin H → ℚ) (bv : Fin O → ℚ)
    (x : Fin B → Fin C → Fin H → ℚ) : Fin B → Fin O → ℚ :=
  fun b => linearFc W bv (meanPool x b)

/-! ### Best-metric tracking of the training driver -/

/-- One epoch's update of the `(best_val_metric, best_test_metric)` pair:
`if val_metric > best_val_metric: best_val_metric = val_metric;
best_test_metric = test_metric`.  `m` is the epoch's
`(val_metric, test_metric)` pair. -/
def bestStep (s m : ℚ × ℚ) : ℚ × ℚ :=
  if s.1 < m.1 then m else s

/-- The `(best_val_metric, best_test_metric)` pair after running the
epoch loop over the listed `(val_metric, test_metric)` observations,
starting from the initial `(0, 0)`. -/
def bestMetrics (ms : List (ℚ × ℚ)) : ℚ × ℚ :=
  ms.foldl bestStep (0, 0)

/-- Running maximum of the validation metrics starting from `a`. -/
def foldMax (a : ℚ) (ms : List (ℚ × ℚ)) : ℚ :=
  ms.foldl (fun x m => max x m.1) a

/-! ### Spec-modelled construction-time validation -/

/-- The kinds of configuration error the spec requires at
construction/initialization time. -/
inductive ConfigError where
  | absentStats
  | lengthMismatch
  | malformedStats
deriving DecidableEq, Repr

/-- Map a fallible lookup over a list, failing on the first failure:
the Python list comprehension `[stats[key] for stats in stats_list]`,
which raises as soon as one record lacks the key. -/
def mapOpt (f : StatsRecord → Option ℚ) : List StatsRecord → Option (List ℚ)
  | [] => some []
  | a :: l =>
      match f a, mapOpt f l with
      | some b, some bs => some (b :: bs)
      | _, _ => none

/-- Modelled from the spec: the `ColTypeEncoder` base-class constructor
and its construction-time validation are not among the provided sources
(only `LinearEncoder`, which extends it, is).  Per the spec,
construction "requires ... the per-column statistics list (must supply
MEAN and STD per column; length must equal `num_columns`)" and "fails
with a configuration error if statistics are absent or malformed";
a `None` statistics list is absent, a list of the wrong length is a
length mismatch, and a record lacking `MEAN` or `STD` is malformed.  On
success the buffers and parameters are built as in `post_init`
(`std` gets the `1e-6` epsilon, bias zeroed, weight drawn from the
oracle `wDraw`). -/
def constructChecked (numCols K D : ℕ)
    (stats_list : Option (List StatsRecord))
    (wDraw : Fin numCols → Fin K → Fin D → ℚ) (act : Option (ℚ → ℚ)) :
    Except ConfigError (LinearEncoder numCols K D) :=
  match stats_list with
  | none => Except.error ConfigError.absentStats
  | some l =>
      if l.length = numCols then
        match mapOpt (fun r => lookupStat r StatType.MEAN) l,
              mapOpt (fun r => lookupStat r StatType.STD) l with
        | some ms, some ss =>
            Except.ok { mean := fun c => ms.getD c 0,
                        std := fun c => ss.getD c 0 + eps,
                        weight := wDraw, bias := fun _ _ => 0,
                        activate := act }
        | _, _ => Except.error ConfigError.malformedStats
      else Except.error ConfigError.lengthMismatch

/-! ### Entry-wise value claims about `encode_forward` -/

/-- C1: for an initialized `LinearEncoder` with `in_dim = 1` and no
activation module, the entry of `encode_forward` at `(b, c, d)` on a 2-D
`[batch, num_cols]` input is the standardized value
`(feat[b,c] - mean[c]) / std[c]` times `weight[c,0,d]`, divided by
`in_dim`, plus `bias[c,d]`. -/
theorem C1_encode_forward_entry_formula {B C D : ℕ} (e : LinearEncoder C 1 D)
    (hact : e.activate = none) (feat : Fin B → Fin C → ℚ)
    (b : Fin B) (c : Fin C) (d : Fin D) :
    encodeForward2D e feat b c d =
      ((feat b c - e.mean c) / e.std c) * e.weight c 0 d / ((1 : ℕ) : ℚ)
        + e.bias c d := by
  simp [encodeForward2D, encodeTail, standardize2, hact, Fin.sum_univ_one]

/-- Fixed concrete encoder for the C1 witness: one column with
`mean = 0`, `std = 1`, `weight = 2`, `bias = 3`, no activation. -/
def e1 : LinearEncoder 1 1 1 :=
  { mean := fun _ => 0, std := fun _ => 1, weight := fun _ _ _ => 2,
    bias := fun _ _ => 3, activate := none }

/-- Constant 2-D raw input for the C1 witness. -/
def feat1 : Fin 1 → Fin 1 → ℚ := fun _ _ => 5

/-- Witness for C1 at the concrete encoder `e1` and constant input 5. -/
theorem C1_encode_forward_entry_formula_witness :
    e1.activate = none ∧
    encodeForward2D e1 feat1 0 0 0 =
      ((feat1 0 0 - e1.mean 0) / e1.std 0) * e1.weight 0 0 0 / ((1 : ℕ) : ℚ)
        + e1.bias 0 0 :=
  ⟨rfl, C1_encode_forward_entry_formula e1 rfl feat1 0 0 0⟩

/-- C6: if a raw input value at column `c` equals the stored mean buffer
value exactly, the standardized value computed inside `encode_forward`
before the per-column projection is exactly 0, on both the 2-D and the
3-D branch. -/
theorem C6_standardize_mean_is_zero {B C K D : ℕ} (e : LinearEncoder C K D) :
    (∀ (feat : Fin B → Fin C → ℚ) (b : Fin B) (c : Fin C),
        feat b c = e.mean c → ∀ k : Fin 1, standardize2 e feat b c k = 0) ∧
    (∀ (feat : Fin B → Fin C → Fin K → ℚ) (b : Fin B) (c : Fin C) (k : Fin K),
        feat b c k = e.mean c → standardize3 e feat b c k = 0) := by
  constructor
  · intro feat b c h k
    simp [standardize2, h]
  · intro feat b c k h
    simp [standardize3, h]

/-- Fixed concrete encoder for the C6 witness: one column with mean 7. -/
def e6 : LinearEncoder 1 1 1 :=
  { mean := fun _ => 7, std := fun _ => 2, weight := fun _ _ _ => 1,
    bias := fun _ _ => 0, activate := none }

/-- Constant 2-D raw input for the C6 witness, equal to `e6`'s mean. -/
def feat6 : Fin 1 → Fin 1 → ℚ := fun _ _ => 7

/-- Witness for C6: a raw value equal to the stored mean standardizes
to 0. -/
theorem C6_standardize_mean_is_zero_witness :
    feat6 0 0 = e6.mean 0 ∧ standardize2 e6 feat6 0 0 0 = 0 :=
  ⟨rfl, (C6_standardize_mean_is_zero e6).1 feat6 0 0 rfl 0⟩

/-- C10: the 2-D and 3-D code paths of `encode_forward` compute the same
function: running the `ndim == 2` branch on `feat` equals running the
`ndim == 3` branch on the pre-expanded `feat.unsqueeze(-1)`. -/
theorem C10_branch_equivalence (e : LinearEncoderL) (feat : List (List ℚ)) :
    encodeForwardL e (RawFeat.d2 feat) =
      encodeForwardL e
        (RawFeat.d3 (feat.map (fun row => row.map (fun v => [v])))) := by
  have h : feat.map (fun row =>
        List.zipWith (fun v p => [(v - p.1) / p.2]) row (e.mean.zip e.std))
      = (feat.map (fun row => row.map (fun v => [v]))).map (fun row =>
          List.zipWith (fun v p => v.map (fun x => (x - p.1) / p.2)) row
            (e.mean.zip e.std)) := by
    simp [List.map_map, List.zipWith_map_left]
  simp only [encodeForwardL, standardizeL]
  rw [h]

/-- C5: the Model Head `fc(x.mean(dim=1))` is invariant under any
permutation of the column axis of the contextualized tensor. -/
theorem C5_head_permutation_invariant {B C H O : ℕ} (W : Fin O → Fin H → ℚ)
    (bv : Fin O → ℚ) (x : Fin B → Fin C → Fin H → ℚ)
    (π : Equiv.Perm (Fin C)) :
    headForward W bv (fun b c h => x b (π c) h) = headForward W bv x := by
  funext b o
  simp only [headForward, linearFc, meanPool]
  congr 1
  refine Finset.sum_congr rfl (fun h _ => ?_)
  congr 2
  exact Equiv.sum_comp π (fun c => x b c h)

/-- The 2-D `encode_forward` as a state transformer: the method body
assigns only to the locals `feat`, `x_lin` and `x`, never to `self`, so
the post-state is the pre-state. -/
def encodeForwardStep2 {B C D : ℕ} (e : LinearEncoder C 1 D)
    (feat : Fin B → Fin C → ℚ) :
    LinearEncoder C 1 D × (Fin B → Fin C → Fin D → ℚ) :=
  (e, encodeForward2D e feat)

/-- The 3-D `encode_forward` as a state transformer; as in the 2-D case
the method body never assigns to `self`. -/
def encodeForwardStep3 {B C K D : ℕ} (e : LinearEncoder C K D)
    (feat : Fin B → Fin C → Fin K → ℚ) :
    LinearEncoder C K D × (Fin B → Fin C → Fin D → ℚ) :=
  (e, encodeForward3D e feat)

/-- C7: a forward call leaves every field of the encoder unchanged, and
`reset_parameters` reassigns only `weight` (fresh normal draw) and
`bias` (zeroed), leaving the `mean` and `std` buffers and the activation
untouched. -/
theorem C7_forward_frame {B C K D : ℕ} :
    (∀ (e : LinearEncoder C 1 D) (feat : Fin B → Fin C → ℚ),
        (encodeForwardStep2 e feat).1 = e) ∧
    (∀ (e : LinearEncoder C K D) (feat : Fin B → Fin C → Fin K → ℚ),
        (encodeForwardStep3 e feat).1 = e) ∧
    (∀ (e : LinearEncoder C K D) (wDraw : Fin C → Fin K → Fin D → ℚ),
        (reset_parameters e wDraw).mean = e.mean ∧
        (reset_parameters e wDraw).std = e.std ∧
        (reset_parameters e wDraw).activate = e.activate ∧
        (reset_parameters e wDraw).weight = wDraw ∧
        (reset_parameters e wDraw).bias = fun _ _ => 0) :=
  ⟨fun _ _ => rfl, fun _ _ => rfl, fun _ _ => ⟨rfl, rfl, rfl, rfl, rfl⟩⟩

/-- Output at a fixed column `j` depends only on that column's weight
and bias slices, the standardized values at `j`, and the activation. -/
theorem encodeTail_column_congr {B C K D : ℕ} {e f : LinearEncoder C K D}
    {j : Fin C} (hw : e.weight j = f.weight j) (hb : e.bias j = f.bias j)
    (ha : e.activate = f.activate)
    {x y : Fin B → Fin C → Fin K → ℚ} (hx : ∀ b k, x b j k = y b j k)
    (b : Fin B) (d : Fin D) :
    encodeTail e x b j d = encodeTail f y b j d := by
  have hsum : ∀ dd : Fin D,
      (∑ k, x b j k * e.weight j k dd) = ∑ k, y b j k * f.weight j k dd := by
    intro dd
    exact Finset.sum_congr rfl (fun k _ => by rw [hx b k, hw])
  simp only [encodeTail, hsum, hb, ha]

/-- C4: per-column noninterference of the encoder stage.  Two
initialized states that agree on `mean`, `std` and on column `j`'s
weight and bias slices (and activation) but may differ in every other
column's weight/bias produce identical outputs at every position
`(b, j, d)`, on both the 3-D and the 2-D branch. -/
theorem C4_per_column_noninterference {B C K D : ℕ}
    (e e' : LinearEncoder C K D) (j : Fin C)
    (hm : e.mean = e'.mean) (hs : e.std = e'.std)
    (hw : e.weight j = e'.weight j) (hb : e.bias j = e'.bias j)
    (ha : e.activate = e'.activate) :
    (∀ (feat : Fin B → Fin C → Fin K → ℚ) (b : Fin B) (d : Fin D),
        encodeForward3D e feat b j d = encodeForward3D e' feat b j d) ∧
    (∀ (f f' : LinearEncoder C 1 D), f.mean = f'.mean → f.std = f'.std →
        f.weight j = f'.weight j → f.bias j = f'.bias j →
        f.activate = f'.activate →
        ∀ (feat : Fin B → Fin C → ℚ) (b : Fin B) (d : Fin D),
        encodeForward2D f feat b j d = encodeForward2D f' feat b j d) := by
  constructor
  · intro feat b d
    exact encodeTail_column_congr hw hb ha
      (fun b k => by simp [standardize3, hm, hs]) b d
  · intro f f' hm2 hs2 hw2 hb2 ha2 feat b d
    exact encodeTail_column_congr hw2 hb2 ha2
      (fun b k => by simp [standardize2, hm2, hs2]) b d

/-- First concrete encoder for the C4 witness (two columns). -/
def e4a : LinearEncoder 2 1 1 :=
  { mean := fun _ => 0, std := fun _ => 1, weight := fun _ _ _ => 1,
    bias := fun _ _ => 0, activate := none }

/-- Second concrete encoder for the C4 witness: same as `e4a` except
that column 1's weight differs. -/
def e4b : LinearEncoder 2 1 1 :=
  { mean := fun _ => 0, std := fun _ => 1,
    weight := fun c _ _ => if c = 0 then 1 else 5,
    bias := fun _ _ => 0, activate := none }

/-- Constant 3-D raw input for the C4 witness. -/
def feat4 : Fin 1 → Fin 2 → Fin 1 → ℚ := fun _ _ _ => 3

/-- Witness for C4: changing column 1's weight does not change column
0's output. -/
theorem C4_per_column_noninterference_witness :
    e4a.mean = e4b.mean ∧ e4a.std = e4b.std ∧
    e4a.weight 0 = e4b.weight 0 ∧ e4a.bias 0 = e4b.bias 0 ∧
    e4a.activate = e4b.activate ∧
    encodeForward3D e4a feat4 0 0 0 = encodeForward3D e4b feat4 0 0 0 :=
  ⟨rfl, rfl, by decide, rfl, rfl,
    (C4_per_column_noninterference e4a e4b 0 rfl rfl (by decide) rfl rfl).1
      feat4 0 0⟩

/-! ### Shape lemmas for the list model -/

/-- Every element of a `zipWith` is the function applied to a pair of
elements of the two input lists. -/
theorem mem_of_mem_zipWith {α β γ : Type} {f : α → β → γ} :
    ∀ {as : List α} {bs : List β} {x : γ}, x ∈ List.zipWith f as bs →
      ∃ a, a ∈ as ∧ ∃ b, b ∈ bs ∧ x = f a b := by
  intro as
  induction as with
  | nil =>
    intro bs x hx
    simp at hx
  | cons a as ih =>
    intro bs x hx
    cases bs with
    | nil => simp at hx
    | cons b bs =>
      rw [List.zipWith_cons_cons] at hx
      rcases List.mem_cons.mp hx with h | h
      · exact ⟨a, List.mem_cons_self a as, b, List.mem_cons_self b bs, h⟩
      · rcases ih h with ⟨a2, ha, b2, hb, hx2⟩
        exact ⟨a2, List.mem_cons_of_mem a ha, b2, List.mem_cons_of_mem b hb, hx2⟩

/-- Summing rows of a fixed width `D` onto a width-`D` accumulator
keeps the width. -/
theorem foldl_vadd_length {D : ℕ} :
    ∀ (l : List (List ℚ)) (acc : List ℚ), acc.length = D →
      (∀ r ∈ l, r.length = D) → (l.foldl vadd acc).length = D := by
  intro l
  induction l with
  | nil => intro acc h _; exact h
  | cons r l ih =>
    intro acc hacc hl
    have hlen : (vadd acc r).length = D := by
      simp [vadd, hacc, hl r (List.mem_cons_self r l)]
    exact ih (vadd acc r) hlen (fun x hx => hl x (List.mem_cons_of_mem r hx))

/-- The einsum contraction of one column produces a `[out_dim]` row when
the column's weight slice has rows of width `out_dim`. -/
theorem einsumRow_length {D : ℕ} (v : List ℚ) (W : List (List ℚ))
    (hW : ∀ r ∈ W, r.length = D) : (einsumRow D v W).length = D := by
  apply foldl_vadd_length
  · simp
  · intro r hr
    rcases mem_of_mem_zipWith hr with ⟨a, _, b, hb, hx⟩
    subst hx
    simp [smulRow, hW b hb]

/-- Applying an elementwise map along the last axis preserves the shape
of a nested-list tensor. -/
theorem shape3_act {t : List (List (List ℚ))} {B C D : ℕ}
    (h : shape3 t B C D) (g : ℚ → ℚ) :
    shape3 (t.map (fun row => row.map (fun v => v.map g))) B C D := by
  obtain ⟨h1, h2⟩ := h
  refine ⟨by simp [h1], ?_⟩
  intro r hr
  simp only [List.mem_map] at hr
  obtain ⟨r0, hr0, rfl⟩ := hr
  obtain ⟨hl, hv⟩ := h2 r0 hr0
  refine ⟨by simp [hl], ?_⟩
  intro v hv2
  simp only [List.mem_map] at hv2
  obtain ⟨v0, hv0, rfl⟩ := hv2
  simp [hv v0 hv0]

/-- The tail of `encode_forward` (einsum, `in_dim` division, bias
addition, activation) maps any `[B][C][*]` standardized input of a
well-formed encoder to a `[B][C][D]` tensor. -/
theorem encodeTailL_shape {B C K D : ℕ} (e : LinearEncoderL)
    (hwf : wfL e C K D) (feat3 : List (List (List ℚ)))
    (hB : feat3.length = B) (hC : ∀ row ∈ feat3, row.length = C) :
    shape3 (encodeTailL e feat3) B C D := by
  obtain ⟨hK, hD, hmean, hstd, hwlen, hw, hblen, hb⟩ := hwf
  have hcore : shape3 (((einsumL e.outDim feat3 e.weight).map
      (fun row => row.map (fun v => v.map (fun x => x / (e.inDim : ℚ))))).map
      (fun row => List.zipWith vadd row e.bias)) B C D := by
    refine ⟨by simp [einsumL, hB], ?_⟩
    intro r hr
    simp only [List.mem_map] at hr
    obtain ⟨r1, hr1, rfl⟩ := hr
    obtain ⟨r2, hr2, rfl⟩ := hr1
    simp only [einsumL, List.mem_map] at hr2
    obtain ⟨row, hrow, rfl⟩ := hr2
    constructor
    · simp [List.length_zipWith, hC row hrow, hwlen, hblen]
    · intro v hv
      rcases mem_of_mem_zipWith hv with ⟨u, hu, bw, hbw, rfl⟩
      simp only [List.mem_map] at hu
      obtain ⟨u0, hu0, rfl⟩ := hu
      rcases mem_of_mem_zipWith hu0 with ⟨vv, _, Wc, hWc, rfl⟩
      have h1 : (einsumRow e.outDim vv Wc).length = D := by
        rw [hD]
        exact einsumRow_length vv Wc (fun rr hrr => (hw Wc hWc).2 rr hrr)
      simp [vadd, h1, hb bw hbw]
  cases hact : e.activate with
  | none => simpa [encodeTailL, hact] using hcore
  | some act => simpa [encodeTailL, hact] using shape3_act hcore act

/-- C2: for every well-formed (initialized) encoder state, the output of
`encode_forward` has shape `[batch, num_cols, out_dim]`, both on a 2-D
`[batch, num_cols]` raw input (with `in_dim = 1`) and on a 3-D
`[batch, num_cols, in_dim]` raw input. -/
theorem C2_output_shape {B C K D : ℕ} (e : LinearEncoderL)
    (hwf : wfL e C K D) :
    (∀ feat : List (List ℚ), K = 1 → feat.length = B →
        (∀ row ∈ feat, row.length = C) →
        shape3 (encodeForwardL e (RawFeat.d2 feat)) B C D) ∧
    (∀ feat : List (List (List ℚ)), feat.length = B →
        (∀ row ∈ feat, row.length = C ∧ ∀ v ∈ row, v.length = K) →
        shape3 (encodeForwardL e (RawFeat.d3 feat)) B C D) := by
  have hmean := hwf.2.2.1
  have hstd := hwf.2.2.2.1
  constructor
  · intro feat _ hB hC
    apply encodeTailL_shape e hwf
    · simp [standardizeL, hB]
    · intro row hrow
      simp only [standardizeL, List.mem_map] at hrow
      obtain ⟨r0, hr0, rfl⟩ := hrow
      simp [List.length_zipWith, hC r0 hr0, hmean, hstd]
  · intro feat hB hC
    apply encodeTailL_shape e hwf
    · simp [standardizeL, hB]
    · intro row hrow
      simp only [standardizeL, List.mem_map] at hrow
      obtain ⟨r0, hr0, rfl⟩ := hrow
      simp [List.length_zipWith, (hC r0 hr0).1, hmean, hstd]

/-- Concrete well-formed encoder state for the C2 witness: one column,
`in_dim = 1`, `out_dim = 2`. -/
def e2 : LinearEncoderL :=
  { inDim := 1, outDim := 2, mean := [0], std := [1],
    weight := [[[1, 2]]], bias := [[0, 0]], activate := none }

/-- Witness for C2 on a concrete one-column batch of size 1. -/
theorem C2_output_shape_witness :
    wfL e2 1 1 2 ∧ shape3 (encodeForwardL e2 (RawFeat.d2 [[3]])) 1 1 2 :=
  ⟨by decide, (C2_output_shape e2 (by decide)).1 [[3]] rfl rfl (by decide)⟩

/-! ### `post_init` claims -/

/-- `seqFin` succeeds exactly on the families whose every entry is
present, returning the family of values. -/
theorem seqFin_pos {C : ℕ} (f : Fin C → Option ℚ) (h : ∀ c, (f c).isSome) :
    seqFin f = some (fun c => (f c).get (h c)) :=
  dif_pos h

/-- C3: when every statistics record carries `MEAN` and `STD` and the
`STD` values are non-negative, `post_init` succeeds (no error even for a
zero-variance column) and sets the `std` buffer of each column to that
column's `STD` statistic plus `1e-6`, so every divisor used by the
standardization step is strictly positive. -/
theorem C3_post_init_epsilon_std {C K D : ℕ}
    (stats_list : Fin C → StatsRecord)
    (wEmpty : Fin C → Fin K → Fin D → ℚ) (bEmpty : Fin C → Fin D → ℚ)
    (wDraw : Fin C → Fin K → Fin D → ℚ) (act : Option (ℚ → ℚ))
    (hkeys : ∀ c, (lookupStat (stats_list c) StatType.MEAN).isSome ∧
        (lookupStat (stats_list c) StatType.STD).isSome)
    (hnn : ∀ c s, lookupStat (stats_list c) StatType.STD = some s → 0 ≤ s) :
    ∃ e, post_init stats_list wEmpty bEmpty wDraw act = some e ∧
      ∀ c, ∃ s, lookupStat (stats_list c) StatType.STD = some s ∧
        e.std c = s + eps ∧ 0 < e.std c := by
  have hM : ∀ c, (lookupStat (stats_list c) StatType.MEAN).isSome :=
    fun c => (hkeys c).1
  have hS : ∀ c, (lookupStat (stats_list c) StatType.STD).isSome :=
    fun c => (hkeys c).2
  refine ⟨reset_parameters
      { mean := fun c => (lookupStat (stats_list c) StatType.MEAN).get (hM c),
        std := fun c =>
          (lookupStat (stats_list c) StatType.STD).get (hS c) + eps,
        weight := wEmpty, bias := bEmpty, activate := act } wDraw, ?_, ?_⟩
  · unfold post_init
    rw [seqFin_pos _ hM, seqFin_pos _ hS]
  · intro c
    refine ⟨(lookupStat (stats_list c) StatType.STD).get (hS c),
      (Option.some_get (hS c)).symm, rfl, ?_⟩
    have h0 : (0 : ℚ) ≤ (lookupStat (stats_list c) StatType.STD).get (hS c) :=
      hnn c _ (Option.some_get (hS c)).symm
    have heps : (0 : ℚ) < eps := by norm_num [eps]
    calc (0 : ℚ) < 0 + eps := by linarith
    _ ≤ (lookupStat (stats_list c) StatType.STD).get (hS c) + eps := by linarith

/-- Concrete statistics for the C3 witness: one zero-variance column. -/
def statsW : Fin 1 → StatsRecord :=
  fun _ => [(StatType.MEAN, 3), (StatType.STD, 0)]

/-- Zero weight oracle used by the C3 witness. -/
def w0 : Fin 1 → Fin 1 → Fin 1 → ℚ := fun _ _ _ => 0

/-- Zero bias oracle used by the C3 witness. -/
def b0 : Fin 1 → Fin 1 → ℚ := fun _ _ => 0

/-- Witness for C3 on a single zero-variance column. -/
theorem C3_post_init_epsilon_std_witness :
    (∀ c, (lookupStat (statsW c) StatType.MEAN).isSome ∧
        (lookupStat (statsW c) StatType.STD).isSome) ∧
    ∃ e, post_init statsW w0 b0 w0 none = some e ∧
      ∀ c, ∃ s, lookupStat (statsW c) StatType.STD = some s ∧
        e.std c = s + eps ∧ 0 < e.std c :=
  ⟨by decide, C3_post_init_epsilon_std statsW w0 b0 w0 none (by decide)
    (fun c s h => by
      have hs : s = 0 := by
        have : lookupStat (statsW c) StatType.STD = some 0 := by
          simp [statsW, lookupStat, List.find?]
        rw [this] at h
        exact (Option.some_inj.mp h).symm
      simp [hs])⟩

/-! ### Construction-time validation claims -/

/-- `mapOpt` fails as soon as one record's lookup fails. -/
theorem mapOpt_eq_none_of_mem {f : StatsRecord → Option ℚ} :
    ∀ {l : List StatsRecord} {r : StatsRecord}, r ∈ l → f r = none →
      mapOpt f l = none := by
  intro l
  induction l with
  | nil => intro r hr _; cases hr
  | cons a l ih =>
    intro r hr hf
    rcases List.mem_cons.mp hr with h | h
    · subst h
      simp [mapOpt, hf]
    · rw [mapOpt, ih h hf]
      cases f a <;> rfl

/-- When `mapOpt` succeeds, every record's lookup succeeded. -/
theorem mapOpt_isSome_of_mem {f : StatsRecord → Option ℚ} :
    ∀ {l : List StatsRecord} {bs : List ℚ}, mapOpt f l = some bs →
      ∀ r ∈ l, (f r).isSome := by
  intro l
  induction l with
  | nil => intro bs _ r hr; cases hr
  | cons a l ih =>
    intro bs hm r hr
    rw [mapOpt] at hm
    cases ha : f a with
    | none => rw [ha] at hm; cases hm
    | some b =>
      rw [ha] at hm
      cases hl : mapOpt f l with
      | none => rw [hl] at hm; cases hm
      | some bs2 =>
        rcases List.mem_cons.mp hr with h | h
        · subst h; simp [ha]
        · exact ih hl r h

/-- C9: constructing the encoder with a statistics list whose length
differs from the declared column count, or with absent (`None`) or
malformed statistics (a record missing `MEAN` or `STD`), yields a
configuration error at construction time; an encoder value exists only
when the list has the declared length and every record carries both
keys. -/
theorem C9_construction_config_error (numCols K D : ℕ)
    (wDraw : Fin numCols → Fin K → Fin D → ℚ) (act : Option (ℚ → ℚ)) :
    constructChecked numCols K D none wDraw act =
      Except.error ConfigError.absentStats ∧
    (∀ l : List StatsRecord, l.length ≠ numCols →
        constructChecked numCols K D (some l) wDraw act =
          Except.error ConfigError.lengthMismatch) ∧
    (∀ (l : List StatsRecord) (r : StatsRecord), r ∈ l →
        l.length = numCols →
        (lookupStat r StatType.MEAN = none ∨
          lookupStat r StatType.STD = none) →
        constructChecked numCols K D (some l) wDraw act =
          Except.error ConfigError.malformedStats) ∧
    (∀ (l : List StatsRecord) (e : LinearEncoder numCols K D),
        constructChecked numCols K D (some l) wDraw act = Except.ok e →
        l.length = numCols ∧ ∀ r ∈ l,
          (lookupStat r StatType.MEAN).isSome ∧
          (lookupStat r StatType.STD).isSome) := by
  refine ⟨rfl, ?_, ?_, ?_⟩
  · intro l hlen
    show (if l.length = numCols then _ else _) = _
    rw [if_neg hlen]
  · intro l r hr hlen hbad
    show (if l.length = numCols then _ else _) = _
    rw [if_pos hlen]
    rcases hbad with h | h
    · have hnone : mapOpt (fun rr => lookupStat rr StatType.MEAN) l = none :=
        mapOpt_eq_none_of_mem hr h
      rw [hnone]
    · have hnone : mapOpt (fun rr => lookupStat rr StatType.STD) l = none :=
        mapOpt_eq_none_of_mem hr h
      rw [hnone]
      cases mapOpt (fun rr => lookupStat rr StatType.MEAN) l <;> rfl
  · intro l e h
    rw [show constructChecked numCols K D (some l) wDraw act =
      (if l.length = numCols then _ else _) from rfl] at h
    by_cases hlen : l.length = numCols
    · rw [if_pos hlen] at h
      cases hm : mapOpt (fun rr => lookupStat rr StatType.MEAN) l with
      | none => rw [hm] at h; cases h
      | some ms =>
        cases hs : mapOpt (fun rr => lookupStat rr StatType.STD) l with
        | none => rw [hm, hs] at h; cases h
        | some ss =>
          exact ⟨hlen, fun r hr =>
            ⟨mapOpt_isSome_of_mem hm r hr, mapOpt_isSome_of_mem hs r hr⟩⟩
    · rw [if_neg hlen] at h
      cases h

/-- Zero weight oracle for a two-column declared count, used by the C9
witness. -/
def w9 : Fin 2 → Fin 1 → Fin 1 → ℚ := fun _ _ _ => 0

/-- Witness for C9: an absent statistics list and a one-record list
against a declared count of two both fail with a configuration error. -/
theorem C9_construction_config_error_witness :
    constructChecked 2 1 1 none w9 none =
      Except.error ConfigError.absentStats ∧
    ([[(StatType.MEAN, (0 : ℚ))]] : List StatsRecord).length ≠ 2 ∧
    constructChecked 2 1 1 (some [[(StatType.MEAN, (0 : ℚ))]]) w9 none =
      Except.error ConfigError.lengthMismatch :=
  ⟨(C9_construction_config_error 2 1 1 w9 none).1, by decide,
    (C9_construction_config_error 2 1 1 w9 none).2.1
      [[(StatType.MEAN, (0 : ℚ))]] (by decide)⟩

/-! ### Best-metric tracking claims -/

/-- The validation component after one update step is the running
maximum. -/
theorem bestStep_fst (s m : ℚ × ℚ) : (bestStep s m).1 = max s.1 m.1 := by
  unfold bestStep
  split
  · exact (max_eq_right (le_of_lt (by assumption))).symm
  · exact (max_eq_left (le_of_not_lt (by assumption))).symm

/-- The starting value is a lower bound of the running maximum. -/
theorem le_foldMax (ms : List (ℚ × ℚ)) : ∀ a, a ≤ foldMax a ms := by
  induction ms with
  | nil => intro a; exact le_refl a
  | cons m ms ih => intro a; exact le_trans (le_max_left a m.1) (ih (max a m.1))

/-- Every observed validation metric is at most the running maximum. -/
theorem mem_le_foldMax (ms : List (ℚ × ℚ)) :
    ∀ a, ∀ m ∈ ms, m.1 ≤ foldMax a ms := by
  induction ms with
  | nil => intro a m hm; cases hm
  | cons x ms ih =>
    intro a m hm
    rcases List.mem_cons.mp hm with h | h
    · subst h
      exact le_trans (le_max_right a m.1) (le_foldMax ms (max a m.1))
    · exact ih (max a x.1) m h

/-- The tracked pair never changes while no validation metric strictly
exceeds its first component. -/
theorem foldl_bestStep_of_le (ms : List (ℚ × ℚ)) :
    ∀ s, (∀ m ∈ ms, m.1 ≤ s.1) → ms.foldl bestStep s = s := by
  induction ms with
  | nil => intro s _; rfl
  | cons x ms ih =>
    intro s h
    have hx : bestStep s x = s := by
      unfold bestStep
      rw [if_neg (not_lt.mpr (h x (List.mem_cons_self x ms)))]
    calc (x :: ms).foldl bestStep s = ms.foldl bestStep (bestStep s x) := rfl
    _ = ms.foldl bestStep s := by rw [hx]
    _ = s := ih s (fun m hm => h m (List.mem_cons_of_mem x hm))

/-- The tracked validation component equals the running maximum of the
observations over the initial value. -/
theorem foldl_bestStep_fst (ms : List (ℚ × ℚ)) :
    ∀ s, (ms.foldl bestStep s).1 = foldMax s.1 ms := by
  induction ms with
  | nil => intro s; rfl
  | cons x ms ih =>
    intro s
    calc ((x :: ms).foldl bestStep s).1
        = (ms.foldl bestStep (bestStep s x)).1 := rfl
    _ = foldMax (bestStep s x).1 ms := ih (bestStep s x)
    _ = foldMax (max s.1 x.1) ms := by rw [bestStep_fst]

/-- Once some observation strictly exceeds the initial value, the
tracked test component is the test metric of the first observation
whose validation metric attains the running maximum. -/
theorem foldl_bestStep_snd (ms : List (ℚ × ℚ)) :
    ∀ s : ℚ × ℚ, s.1 < foldMax s.1 ms →
      (ms.find? (fun m => decide (foldMax s.1 ms ≤ m.1))).map Prod.snd =
        some ((ms.foldl bestStep s).2) := by
  induction ms with
  | nil => intro s h; exact absurd h (lt_irrefl s.1)
  | cons x ms ih =>
    intro s h
    by_cases hx : foldMax s.1 (x :: ms) ≤ x.1
    · have hfind : (x :: ms).find?
          (fun m => decide (foldMax s.1 (x :: ms) ≤ m.1)) = some x :=
        List.find?_cons_of_pos _ (by simpa using hx)
      rw [hfind]
      have hsx : bestStep s x = x := by
        unfold bestStep
        rw [if_pos (lt_of_lt_of_le h hx)]
      have hrest : ms.foldl bestStep x = x :=
        foldl_bestStep_of_le ms x
          (fun m hm => le_trans (mem_le_foldMax ms (max s.1 x.1) m hm) hx)
      show some x.2 = some (((x :: ms).foldl bestStep s).2)
      rw [show (x :: ms).foldl bestStep s
            = ms.foldl bestStep (bestStep s x) from rfl, hsx, hrest]
    · have hfind : (x :: ms).find?
          (fun m => decide (foldMax s.1 (x :: ms) ≤ m.1)) =
          ms.find? (fun m => decide (foldMax s.1 (x :: ms) ≤ m.1)) :=
        List.find?_cons_of_neg _ (by simpa using hx)
      rw [hfind]
      have hM : foldMax s.1 (x :: ms) = foldMax (bestStep s x).1 ms := by
        rw [bestStep_fst]
        rfl
      have hlt : (bestStep s x).1 < foldMax (bestStep s x).1 ms := by
        rw [bestStep_fst]
        exact max_lt h (not_le.mp hx)
      rw [hM]
      rw [show (x :: ms).foldl bestStep s
            = ms.foldl bestStep (bestStep s x) from rfl]
      exact ih (bestStep s x) hlt

/-- C8: after every epoch, `best_val_metric` is the maximum of its
initial value 0 and all validation accuracies observed so far; when no
validation accuracy exceeds 0 the tracked pair stays `(0, 0)`; once the
maximum is positive, `best_test_metric` is the test accuracy recorded at
the first epoch whose validation accuracy attained that maximum; and the
pair is updated only when the current validation accuracy strictly
exceeds the previous best. -/
theorem C8_best_metric_tracking (ms : List (ℚ × ℚ)) :
    (bestMetrics ms).1 = foldMax 0 ms ∧
    ((∀ m ∈ ms, m.1 ≤ 0) → bestMetrics ms = (0, 0)) ∧
    (0 < foldMax 0 ms →
      (ms.find? (fun m => decide (foldMax 0 ms ≤ m.1))).map Prod.snd =
        some (bestMetrics ms).2) ∧
    (∀ s m : ℚ × ℚ, m.1 ≤ s.1 → bestStep s m = s) := by
  refine ⟨foldl_bestStep_fst ms (0, 0), ?_, ?_, ?_⟩
  · intro h
    exact foldl_bestStep_of_le ms (0, 0) h
  · intro h
    exact foldl_bestStep_snd ms (0, 0) h
  · intro s m h
    unfold bestStep
    rw [if_neg (not_lt.mpr h)]

/-- Concrete epoch observations for the C8 witness: the maximum
validation accuracy `1/2` is attained at the first epoch. -/
def msW : List (ℚ × ℚ) := [(1/2, 3/4), (1/4, 1/10)]

/-- Witness for C8 on the concrete observation list `msW`. -/
theorem C8_best_metric_tracking_witness :
    0 < foldMax 0 msW ∧
    (msW.find? (fun m => decide (foldMax 0 msW ≤ m.1))).map Prod.snd =
      some (bestMetrics msW).2 :=
  ⟨by norm_num [msW, foldMax],
    (C8_best_metric_tracking msW).2.2.1 (by norm_num [msW, foldMax])⟩

end Rllm
